import Mathlib

/-!
# Shallow embedding of the Bitcoin transaction codec (`src/lib.rs`)

Byte slices are modelled as `List Nat` (each element is one `u8`; the
multi-byte integer helpers combine bytes little-endian).  Machine integers
(`u8`, `u16`, `u32`, `u64`, `usize`) are modelled as `Nat`; casts that are
lossy in Rust are modelled with explicit `% 2^w`, and the type-level bounds
of the Rust integers (`value < 2^64`, `vout < 2^32`, `txid` has 32 bytes,
a `Vec` has fewer than `2^64` elements) appear as hypotheses of theorems
that need them.

Fallible Rust functions returning `Result<T, BitcoinError>` are embedded as
functions into `RResult T`, which has a third outcome `panicked` modelling a
Rust panic (the source calls `.unwrap()` on nested decode results inside
`TransactionInput::from_bytes`, so a panic is a reachable outcome there).
-/

namespace BtcCodec

/-- Little-endian byte list of a value, `w` bytes wide: models
`uN::to_le_bytes` (the truncating cast `as uN` is absorbed by the `% 256`
at each position). -/
def toLE : Nat → Nat → List Nat
  | 0, _ => []
  | w + 1, v => v % 256 :: toLE w (v / 256)

/-- Little-endian value of a byte list: models `uN::from_le_bytes`. -/
def fromLE : List Nat → Nat
  | [] => 0
  | b :: bs => b + 256 * fromLE bs

/-- The two error values of `enum BitcoinError`. -/
inductive BitcoinError where
  | InsufficientBytes
  | InvalidFormat
deriving DecidableEq, Repr

/-- Outcome of running a Rust function returning
`Result<A, BitcoinError>`: `ok`, `err`, or a panic (`unwrap` on an `Err`). -/
inductive RResult (α : Type) where
  | ok : α → RResult α
  | err : BitcoinError → RResult α
  | panicked : RResult α
deriving DecidableEq, Repr

/-- Rust's `?` operator on a `Result`: continue on `Ok`, return the error
verbatim otherwise (a panic also aborts). -/
def RResult.andThen : RResult α → (α → RResult β) → RResult β
  | .ok a, f => f a
  | .err e, _ => .err e
  | .panicked, _ => .panicked

/-- Rust's `.unwrap()` on a `Result`, followed by the rest of the caller:
continue on `Ok`, PANIC otherwise. -/
def RResult.unwrapThen : RResult α → (α → RResult β) → RResult β
  | .ok a, f => f a
  | _, _ => .panicked

@[simp] theorem RResult.andThen_ok (a : α) (f : α → RResult β) :
    (RResult.ok a).andThen f = f a := rfl

@[simp] theorem RResult.andThen_err (e : BitcoinError) (f : α → RResult β) :
    (RResult.err e).andThen f = .err e := rfl

@[simp] theorem RResult.andThen_panicked (f : α → RResult β) :
    (RResult.panicked : RResult α).andThen f = .panicked := rfl

@[simp] theorem RResult.unwrapThen_ok (a : α) (f : α → RResult β) :
    (RResult.ok a).unwrapThen f = f a := rfl

@[simp] theorem RResult.unwrapThen_err (e : BitcoinError) (f : α → RResult β) :
    (RResult.err e).unwrapThen f = .panicked := rfl

@[simp] theorem RResult.unwrapThen_panicked (f : α → RResult β) :
    (RResult.panicked : RResult α).unwrapThen f = .panicked := rfl

/-- `struct CompactSize { value: u64 }`. -/
structure CompactSize where
  value : Nat
deriving DecidableEq, Repr

/-- `CompactSize::new`. -/
def CompactSize.new (value : Nat) : CompactSize := ⟨value⟩

/-- `CompactSize::to_bytes`: match on the numeric range of `value`
(`0..=252`, `253..=65535`, `65536..=4294967295`, rest). -/
def CompactSize.to_bytes (c : CompactSize) : List Nat :=
  let val := c.value
  if val ≤ 252 then [val % 256]
  else if val ≤ 65535 then 253 :: toLE 2 val
  else if val ≤ 4294967295 then 254 :: toLE 4 val
  else 255 :: toLE 8 val

/-- `CompactSize::from_bytes`: empty input fails; otherwise the first byte
is the discriminator (`0..=252` literal, `253`/`254`/`255` select a 2-, 4-
or 8-byte little-endian payload read from `bytes[1..]`), with a length
check before each payload read. -/
def CompactSize.from_bytes (bytes : List Nat) : RResult (CompactSize × Nat) :=
  match bytes with
  | [] => .err .InsufficientBytes
  | pfx :: tail =>
    if pfx ≤ 252 then
      .ok (CompactSize.new pfx, 1)
    else if pfx = 253 then
      if (pfx :: tail).length < 3 then .err .InsufficientBytes
      else .ok (CompactSize.new (fromLE (tail.take 2)), 3)
    else if pfx = 254 then
      if (pfx :: tail).length < 5 then .err .InsufficientBytes
      else .ok (CompactSize.new (fromLE (tail.take 4)), 5)
    else
      if (pfx :: tail).length < 9 then .err .InsufficientBytes
      else .ok (CompactSize.new (fromLE (tail.take 8)), 9)

/-- `struct Txid(pub [u8; 32])`; the fixed array length 32 is a type-level
fact in Rust and appears as a hypothesis where a theorem needs it. -/
structure Txid where
  bytes : List Nat
deriving DecidableEq, Repr

/-- Lowercase hex digit for a nibble, as produced by `hex::encode`. -/
def hexDigit (n : Nat) : Char :=
  if n < 10 then Char.ofNat (48 + n) else Char.ofNat (87 + n)

/-- `hex::encode`: each byte becomes two lowercase hex characters,
high nibble first. -/
def hexEncode (bs : List Nat) : List Char :=
  (bs.map (fun b => [hexDigit (b / 16), hexDigit (b % 16)])).flatten

/-- Value of one hex character (`0-9`, `a-f`, `A-F`), or `none`. -/
def hexVal (c : Char) : Option Nat :=
  if 48 ≤ c.toNat ∧ c.toNat ≤ 57 then some (c.toNat - 48)
  else if 97 ≤ c.toNat ∧ c.toNat ≤ 102 then some (c.toNat - 87)
  else if 65 ≤ c.toNat ∧ c.toNat ≤ 70 then some (c.toNat - 55)
  else none

/-- `hex::decode`: fails on odd length or a non-hex character, otherwise
turns each pair of characters into one byte. -/
def hexDecode : List Char → Option (List Nat)
  | [] => some []
  | [_] => none
  | a :: b :: rest =>
    match hexVal a, hexVal b, hexDecode rest with
    | some hi, some lo, some l => some ((16 * hi + lo) :: l)
    | _, _, _ => none

/-- Outcome of the serde `Deserialize` impl for `Txid`: success, the
`Error::custom("Invalid hex string. Could not decode")` path, or a panic
(the impl calls `.unwrap()` on the inner string and hex results). -/
inductive SerdeResult (α : Type) where
  | ok : α → SerdeResult α
  | customErr : SerdeResult α
  | panicked : SerdeResult α
deriving DecidableEq, Repr

/-- `impl Serialize for Txid`: serialize the 32 bytes as a hex string. -/
def Txid.serialize (t : Txid) : List Char :=
  hexEncode t.bytes

/-- `impl Deserialize for Txid` applied to a string input: the
`StringVisitor` returns the string itself, `decode(hex_str).unwrap()`
panics when the input is not valid hex, then a decoded length other than
32 yields `Error::custom(...)`, else the byte array is wrapped in `Txid`. -/
def Txid.deserialize (s : List Char) : SerdeResult Txid :=
  match hexDecode s with
  | none => .panicked
  | some raw_bytes =>
    if raw_bytes.length ≠ 32 then .customErr
    else .ok ⟨raw_bytes⟩

/-- `struct OutPoint { txid: Txid, vout: u32 }`. -/
structure OutPoint where
  txid : Txid
  vout : Nat
deriving DecidableEq, Repr

/-- `OutPoint::to_bytes`: the 32 txid bytes (copied verbatim) followed by
`vout` as 4 little-endian bytes. -/
def OutPoint.to_bytes (o : OutPoint) : List Nat :=
  o.txid.bytes ++ toLE 4 o.vout

/-- `OutPoint::from_bytes`: fewer than 36 bytes fails; otherwise the txid is
`bytes[0..32]`, `vout` is `u32::from_le_bytes(bytes[32..36])`, and exactly
36 bytes are consumed. -/
def OutPoint.from_bytes (bytes : List Nat) : RResult (OutPoint × Nat) :=
  if bytes.length < 36 then .err .InsufficientBytes
  else .ok (⟨⟨bytes.take 32⟩, fromLE ((bytes.drop 32).take 4)⟩, 36)

/-- `struct Script { bytes: Vec<u8> }`. -/
structure Script where
  bytes : List Nat
deriving DecidableEq, Repr

/-- `Script::new`. -/
def Script.new (bytes : List Nat) : Script := ⟨bytes⟩

/-- `Script::to_bytes`: `CompactSize(len)` prefix followed by the raw
bytes (the `len as u64` cast is lossless for any Rust `Vec`, whose length
is below `2^64`; theorems about oversized lists add that bound). -/
def Script.to_bytes (s : Script) : List Nat :=
  (CompactSize.new s.bytes.length).to_bytes ++ s.bytes

/-- `Script::from_bytes`: empty input fails; otherwise parse the
`CompactSize` prefix (propagating its failure via `?`), require
`size_consumed + script_len` bytes, and return `bytes[size_consumed..
size_consumed+script_len]` with total consumed `size_consumed + script_len`. -/
def Script.from_bytes (bytes : List Nat) : RResult (Script × Nat) :=
  if bytes.isEmpty then .err .InsufficientBytes
  else
    (CompactSize.from_bytes bytes).andThen fun cs =>
      let compact_size := cs.1
      let size_consumed := cs.2
      let script_len := compact_size.value
      if bytes.length < size_consumed + script_len then .err .InsufficientBytes
      else .ok (Script.new ((bytes.drop size_consumed).take script_len),
                size_consumed + script_len)

/-- `struct TransactionInput`. -/
structure TransactionInput where
  previous_output : OutPoint
  script_sig : Script
  sequence : Nat
deriving DecidableEq, Repr

/-- `TransactionInput::to_bytes`: OutPoint, then Script (with its
CompactSize prefix), then `sequence` as 4 little-endian bytes. -/
def TransactionInput.to_bytes (t : TransactionInput) : List Nat :=
  t.previous_output.to_bytes ++ t.script_sig.to_bytes ++ toLE 4 t.sequence

/-- `TransactionInput::from_bytes`: fewer than 36 bytes fails; then
`OutPoint::from_bytes(&bytes[0..]).unwrap()` (a panic on `Err`), the dead
`outpoint_consumed != 36` and `bytes_len < offset` checks, then
`Script::from_bytes(&bytes[offset..]).unwrap()` — note the `.unwrap()`:
a script decode failure PANICS instead of being returned — then 4 bytes of
`sequence`, total consumed `offset + script_consumed + 4`. -/
def TransactionInput.from_bytes (bytes : List Nat) : RResult (TransactionInput × Nat) :=
  let bytes_len := bytes.length
  if bytes_len < 36 then .err .InsufficientBytes
  else
    (OutPoint.from_bytes bytes).unwrapThen fun op =>
      let outpoint := op.1
      let outpoint_consumed := op.2
      let offset := outpoint_consumed
      if outpoint_consumed ≠ 36 then .err .InvalidFormat
      else if bytes_len < offset then .err .InsufficientBytes
      else
        (Script.from_bytes (bytes.drop offset)).unwrapThen fun sc =>
          let script_sig := sc.1
          let script_consumed := sc.2
          let offset2 := offset + script_consumed
          if bytes_len < offset2 + 4 then .err .InsufficientBytes
          else
            .ok (⟨outpoint, script_sig, fromLE ((bytes.drop offset2).take 4)⟩,
                 offset2 + 4)

/-- `struct BitcoinTransaction`. -/
structure BitcoinTransaction where
  version : Nat
  inputs : List TransactionInput
  lock_time : Nat
deriving DecidableEq, Repr

/-- `BitcoinTransaction::to_bytes`: version (4 bytes LE), CompactSize of
`inputs.len()`, each input's serialization in order, lock_time (4 bytes
LE). -/
def BitcoinTransaction.to_bytes (tx : BitcoinTransaction) : List Nat :=
  toLE 4 tx.version
    ++ (CompactSize.new tx.inputs.length).to_bytes
    ++ (tx.inputs.map TransactionInput.to_bytes).flatten
    ++ toLE 4 tx.lock_time

/-- The input-parsing loop of `BitcoinTransaction::from_bytes`
(`for _ in 0..input_count`): at each step, return `InsufficientBytes` when
`bytes_len < offset`, otherwise decode one `TransactionInput` at `offset`
(propagating failure via `?` and panics), push it and advance. -/
def decodeInputs (bytes : List Nat) : Nat → Nat → List TransactionInput →
    RResult (List TransactionInput × Nat)
  | 0, offset, acc => .ok (acc, offset)
  | count + 1, offset, acc =>
    if bytes.length < offset then .err .InsufficientBytes
    else
      (TransactionInput.from_bytes (bytes.drop offset)).andThen fun ti =>
        decodeInputs bytes count (offset + ti.2) (acc ++ [ti.1])

/-- `BitcoinTransaction::from_bytes`: fewer than 4 bytes fails; read the
4-byte LE version; decode the CompactSize input count at offset 4
(propagated via `?`); run the input loop; finally require 4 bytes of
`lock_time` at the final offset, consuming `offset + 4` in total. -/
def BitcoinTransaction.from_bytes (bytes : List Nat) :
    RResult (BitcoinTransaction × Nat) :=
  let bytes_len := bytes.length
  if bytes_len < 4 then .err .InsufficientBytes
  else
    let version := fromLE (bytes.take 4)
    (CompactSize.from_bytes (bytes.drop 4)).andThen fun cs =>
      let input_count := cs.1.value
      let size_consumed := cs.2
      (decodeInputs bytes input_count (4 + size_consumed) []).andThen fun dec =>
        let inputs := dec.1
        let offset := dec.2
        if bytes_len < offset + 4 then .err .InsufficientBytes
        else
          .ok (⟨version, inputs, fromLE ((bytes.drop offset).take 4)⟩,
               offset + 4)

/-! ## Helper lemmas -/

@[simp]
theorem toLE_length (w v : Nat) : (toLE w v).length = w := by
  induction w generalizing v with
  | zero => rfl
  | succ w ih => simp [toLE, ih]

theorem fromLE_toLE (w v : Nat) : fromLE (toLE w v) = v % 256 ^ w := by
  induction w generalizing v with
  | zero => simp [toLE, fromLE, Nat.mod_one]
  | succ w ih =>
    rw [toLE, fromLE, ih, pow_succ, mul_comm (256 ^ w) 256, Nat.mod_mul]

theorem fromLE_toLE_of_lt {w v : Nat} (h : v < 256 ^ w) :
    fromLE (toLE w v) = v := by
  rw [fromLE_toLE, Nat.mod_eq_of_lt h]

theorem take_toLE_append (w v : Nat) (rest : List Nat) :
    (toLE w v ++ rest).take w = toLE w v := by
  rw [List.take_append_of_le_length (by simp), List.take_of_length_le (by simp)]

theorem drop_toLE_append (w v : Nat) (rest : List Nat) :
    (toLE w v ++ rest).drop w = rest := by
  rw [List.drop_append_of_le_length (by simp),
    List.drop_eq_nil_of_le (by simp), List.nil_append]

/-! ## CompactSize lemmas -/

/-- Decoding an encoded `CompactSize` followed by arbitrary trailing bytes
recovers the value and consumes exactly the encoding. -/
theorem CompactSize.from_bytes_to_bytes_append_cs (c : CompactSize)
    (h : c.value < 2 ^ 64) (rest : List Nat) :
    CompactSize.from_bytes (c.to_bytes ++ rest) = .ok (c, c.to_bytes.length) := by
  obtain ⟨v⟩ := c
  replace h : v < 2 ^ 64 := h
  by_cases h1 : v ≤ 252
  · simp [to_bytes, from_bytes, h1, Nat.mod_eq_of_lt (show v < 256 by omega),
      CompactSize.new]
  · by_cases h2 : v ≤ 65535
    · simp only [to_bytes, h1, if_false, h2, if_true, List.cons_append,
        from_bytes]
      rw [if_neg (show ¬((253 : Nat) ≤ 252) by decide),
        if_neg (show ¬((253 :: (toLE 2 v ++ rest)).length < 3) by
          simp only [List.length_cons, List.length_append, toLE_length]; omega),
        take_toLE_append, fromLE_toLE_of_lt (show v < 256 ^ 2 by omega)]
      simp [CompactSize.new]
    · by_cases h3 : v ≤ 4294967295
      · simp only [to_bytes, h1, if_false, h2, if_false, h3, if_true,
          List.cons_append, from_bytes]
        rw [if_neg (show ¬((254 : Nat) ≤ 252) by decide),
          if_neg (show ¬((254 : Nat) = 253) by decide),
          if_neg (show ¬((254 :: (toLE 4 v ++ rest)).length < 5) by
            simp only [List.length_cons, List.length_append, toLE_length]; omega),
          take_toLE_append, fromLE_toLE_of_lt (show v < 256 ^ 4 by omega)]
        simp [CompactSize.new]
      · simp only [to_bytes, h1, if_false, h2, if_false, h3, if_false,
          List.cons_append, from_bytes]
        rw [if_neg (show ¬((255 : Nat) ≤ 252) by decide),
          if_neg (show ¬((255 : Nat) = 253) by decide),
          if_neg (show ¬((255 : Nat) = 254) by decide),
          if_neg (show ¬((255 :: (toLE 8 v ++ rest)).length < 9) by
            simp only [List.length_cons, List.length_append, toLE_length]; omega),
          take_toLE_append, fromLE_toLE_of_lt (show v < 256 ^ 8 by omega)]
        simp [CompactSize.new]

/-- Plain round-trip for `CompactSize`. -/
theorem CompactSize.from_bytes_to_bytes_cs (c : CompactSize)
    (h : c.value < 2 ^ 64) :
    CompactSize.from_bytes c.to_bytes = .ok (c, c.to_bytes.length) := by
  simpa using CompactSize.from_bytes_to_bytes_append_cs c h []

/-- A successful `CompactSize` decode is preserved by appending trailing
bytes. -/
theorem CompactSize.from_bytes_extend_cs {bs : List Nat} {c : CompactSize}
    {n : Nat} (h : CompactSize.from_bytes bs = .ok (c, n)) (rest : List Nat) :
    CompactSize.from_bytes (bs ++ rest) = .ok (c, n) := by
  match bs with
  | [] => simp [from_bytes] at h
  | pfx :: tail =>
    simp only [from_bytes, List.cons_append] at h ⊢
    split_ifs at h ⊢ <;>
      first
      | exact h
      | (exfalso; simp_all; omega)
      | (rw [List.take_append_of_le_length (by simp_all)]; exact h)

/-- A successful `CompactSize` decode consumes at most the input length. -/
theorem CompactSize.from_bytes_le_length_cs {bs : List Nat} {c : CompactSize}
    {n : Nat} (h : CompactSize.from_bytes bs = .ok (c, n)) : n ≤ bs.length := by
  match bs with
  | [] => simp [from_bytes] at h
  | pfx :: tail =>
    simp only [from_bytes] at h
    split_ifs at h <;>
      simp only [RResult.ok.injEq, Prod.mk.injEq] at h <;>
      (simp only [List.length_cons] at *) <;> omega

/-! ## OutPoint lemmas -/

theorem OutPoint.to_bytes_length_op (o : OutPoint)
    (h32 : o.txid.bytes.length = 32) : o.to_bytes.length = 36 := by
  simp [to_bytes, h32]

/-- Decoding an encoded `OutPoint` followed by arbitrary trailing bytes
recovers it and consumes exactly 36 bytes. -/
theorem OutPoint.from_bytes_to_bytes_append_op (o : OutPoint)
    (h32 : o.txid.bytes.length = 32) (hv : o.vout < 2 ^ 32) (rest : List Nat) :
    OutPoint.from_bytes (o.to_bytes ++ rest) = .ok (o, 36) := by
  rw [OutPoint.from_bytes,
    if_neg (show ¬((o.to_bytes ++ rest).length < 36) by
      simp only [List.length_append, to_bytes, toLE_length, h32]; omega)]
  rw [to_bytes, List.append_assoc]
  have ht : (o.txid.bytes ++ (toLE 4 o.vout ++ rest)).take 32 = o.txid.bytes := by
    rw [List.take_append_of_le_length (by omega), List.take_of_length_le (by omega)]
  have hd : (o.txid.bytes ++ (toLE 4 o.vout ++ rest)).drop 32 =
      toLE 4 o.vout ++ rest := by
    rw [← h32, List.drop_left]
  rw [ht, hd, take_toLE_append, fromLE_toLE_of_lt (show o.vout < 256 ^ 4 by omega)]

/-- Plain round-trip for `OutPoint`. -/
theorem OutPoint.from_bytes_to_bytes_op (o : OutPoint)
    (h32 : o.txid.bytes.length = 32) (hv : o.vout < 2 ^ 32) :
    OutPoint.from_bytes o.to_bytes = .ok (o, 36) := by
  simpa using OutPoint.from_bytes_to_bytes_append_op o h32 hv []

/-- A successful `OutPoint` decode is preserved by appending trailing
bytes. -/
theorem OutPoint.from_bytes_extend_op {bs : List Nat} {o : OutPoint} {n : Nat}
    (h : OutPoint.from_bytes bs = .ok (o, n)) (rest : List Nat) :
    OutPoint.from_bytes (bs ++ rest) = .ok (o, n) := by
  rw [OutPoint.from_bytes] at h
  by_cases hlen : bs.length < 36
  · simp [hlen] at h
  · rw [if_neg hlen] at h
    rw [OutPoint.from_bytes,
      if_neg (show ¬((bs ++ rest).length < 36) by simp; omega),
      List.take_append_of_le_length (by omega),
      List.drop_append_of_le_length (by omega),
      List.take_append_of_le_length (by simp [List.length_drop]; omega)]
    exact h

/-- A successful `OutPoint` decode consumes at most the input length. -/
theorem OutPoint.from_bytes_le_length_op {bs : List Nat} {o : OutPoint} {n : Nat}
    (h : OutPoint.from_bytes bs = .ok (o, n)) : n ≤ bs.length := by
  rw [OutPoint.from_bytes] at h
  by_cases hlen : bs.length < 36
  · simp [hlen] at h
  · rw [if_neg hlen] at h
    simp only [RResult.ok.injEq, Prod.mk.injEq] at h
    omega

/-! ## Script lemmas -/

theorem CompactSize.to_bytes_ne_nil (c : CompactSize) : c.to_bytes ≠ [] := by
  rw [to_bytes]
  split_ifs <;> simp

theorem Script.to_bytes_length_scr (s : Script) :
    s.to_bytes.length
      = (CompactSize.new s.bytes.length).to_bytes.length + s.bytes.length := by
  simp [to_bytes]

/-- Decoding an encoded `Script` followed by arbitrary trailing bytes
recovers it and consumes exactly the encoding. -/
theorem Script.from_bytes_to_bytes_append_scr (s : Script)
    (h : s.bytes.length < 2 ^ 64) (rest : List Nat) :
    Script.from_bytes (s.to_bytes ++ rest) = .ok (s, s.to_bytes.length) := by
  have harr : s.to_bytes ++ rest
      = (CompactSize.new s.bytes.length).to_bytes ++ (s.bytes ++ rest) := by
    rw [to_bytes, List.append_assoc]
  have hne := CompactSize.to_bytes_ne_nil (CompactSize.new s.bytes.length)
  have hcsr := CompactSize.from_bytes_to_bytes_append_cs
    (CompactSize.new s.bytes.length) h (s.bytes ++ rest)
  rw [Script.from_bytes, harr,
    if_neg (show ¬((((CompactSize.new s.bytes.length).to_bytes
        ++ (s.bytes ++ rest)).isEmpty) = true) by
      simp only [List.isEmpty_eq_true, List.append_eq_nil]
      tauto),
    hcsr, RResult.andThen_ok,
    if_neg (show ¬(((CompactSize.new s.bytes.length).to_bytes
          ++ (s.bytes ++ rest)).length
        < (CompactSize.new s.bytes.length).to_bytes.length
          + (CompactSize.new s.bytes.length).value) by
      simp [CompactSize.new]),
    List.drop_left]
  simp only [CompactSize.new]
  rw [List.take_left]
  simp [Script.new, to_bytes, CompactSize.new]

/-- Plain round-trip for `Script`. -/
theorem Script.from_bytes_to_bytes_scr (s : Script) (h : s.bytes.length < 2 ^ 64) :
    Script.from_bytes s.to_bytes = .ok (s, s.to_bytes.length) := by
  simpa using Script.from_bytes_to_bytes_append_scr s h []

/-- A successful `Script` decode is preserved by appending trailing bytes. -/
theorem Script.from_bytes_extend_scr {bs : List Nat} {s : Script} {n : Nat}
    (h : Script.from_bytes bs = .ok (s, n)) (rest : List Nat) :
    Script.from_bytes (bs ++ rest) = .ok (s, n) := by
  rw [Script.from_bytes] at h
  by_cases he : bs.isEmpty
  · simp [he] at h
  · rw [if_neg he] at h
    rcases hcs : CompactSize.from_bytes bs with p | e | _ <;> rw [hcs] at h <;>
      simp only [RResult.andThen_ok, RResult.andThen_err,
        RResult.andThen_panicked] at h
    · obtain ⟨c, k⟩ := p
      have hk := CompactSize.from_bytes_le_length_cs hcs
      by_cases hlen : bs.length < k + c.value
      · simp [hlen] at h
      · rw [if_neg hlen] at h
        simp only [RResult.ok.injEq, Prod.mk.injEq] at h
        obtain ⟨hs, hn⟩ := h
        rw [Script.from_bytes,
          if_neg (show ¬(((bs ++ rest).isEmpty) = true) by
            simp only [List.isEmpty_eq_true, List.append_eq_nil]
            intro hx
            exact he (by simp [hx.1])),
          CompactSize.from_bytes_extend_cs hcs rest, RResult.andThen_ok,
          if_neg (show ¬((bs ++ rest).length < k + c.value) by simp; omega),
          List.drop_append_of_le_length (by omega),
          List.take_append_of_le_length (by simp [List.length_drop]; omega)]
        rw [hs, hn]
    · cases h
    · cases h

/-- A successful `Script` decode consumes at most the input length. -/
theorem Script.from_bytes_le_length_scr {bs : List Nat} {s : Script} {n : Nat}
    (h : Script.from_bytes bs = .ok (s, n)) : n ≤ bs.length := by
  rw [Script.from_bytes] at h
  by_cases he : bs.isEmpty
  · simp [he] at h
  · rw [if_neg he] at h
    rcases hcs : CompactSize.from_bytes bs with p | e | _ <;> rw [hcs] at h <;>
      simp only [RResult.andThen_ok, RResult.andThen_err,
        RResult.andThen_panicked] at h
    · obtain ⟨c, k⟩ := p
      by_cases hlen : bs.length < k + c.value
      · simp [hlen] at h
      · rw [if_neg hlen] at h
        simp only [RResult.ok.injEq, Prod.mk.injEq] at h
        omega
    · cases h
    · cases h

/-! ## TransactionInput lemmas -/

/-- The type-level invariants Rust guarantees for a well-formed
`TransactionInput` value: 32 txid bytes, `u32` fields in range, and a
script that fits in memory. -/
def TransactionInput.wf (t : TransactionInput) : Prop :=
  t.previous_output.txid.bytes.length = 32 ∧
  t.previous_output.vout < 2 ^ 32 ∧
  t.script_sig.bytes.length < 2 ^ 64 ∧
  t.sequence < 2 ^ 32

instance (t : TransactionInput) : Decidable t.wf := by
  unfold TransactionInput.wf; infer_instance

theorem TransactionInput.to_bytes_length_ti (t : TransactionInput)
    (h32 : t.previous_output.txid.bytes.length = 32) :
    t.to_bytes.length = 36 + t.script_sig.to_bytes.length + 4 := by
  simp [to_bytes, OutPoint.to_bytes, h32]
  omega

/-- Decoding an encoded `TransactionInput` followed by arbitrary trailing
bytes recovers it and consumes exactly the encoding. -/
theorem TransactionInput.from_bytes_to_bytes_append_ti (t : TransactionInput)
    (h : t.wf) (rest : List Nat) :
    TransactionInput.from_bytes (t.to_bytes ++ rest)
      = .ok (t, t.to_bytes.length) := by
  obtain ⟨h32, hv, hs, hq⟩ := h
  have hol : t.previous_output.to_bytes.length = 36 :=
    OutPoint.to_bytes_length_op _ h32
  have harr : t.to_bytes ++ rest
      = t.previous_output.to_bytes
        ++ (t.script_sig.to_bytes ++ (toLE 4 t.sequence ++ rest)) := by
    simp [to_bytes]
  have hlen : (t.to_bytes ++ rest).length
      = 36 + t.script_sig.to_bytes.length + 4 + rest.length := by
    simp [to_bytes_length_ti t h32]
  simp only [TransactionInput.from_bytes]
  rw [if_neg (show ¬((t.to_bytes ++ rest).length < 36) by omega), harr,
    OutPoint.from_bytes_to_bytes_append_op _ h32 hv, RResult.unwrapThen_ok]
  rw [if_neg (show ¬((36 : Nat) ≠ 36) by simp),
    if_neg (show ¬((t.previous_output.to_bytes
        ++ (t.script_sig.to_bytes ++ (toLE 4 t.sequence ++ rest))).length
        < 36) by rw [← harr]; omega),
    show (t.previous_output.to_bytes
        ++ (t.script_sig.to_bytes ++ (toLE 4 t.sequence ++ rest))).drop 36
      = t.script_sig.to_bytes ++ (toLE 4 t.sequence ++ rest) by
        rw [← hol, List.drop_left],
    Script.from_bytes_to_bytes_append_scr t.script_sig hs (toLE 4 t.sequence ++ rest),
    RResult.unwrapThen_ok]
  rw [if_neg (show ¬((t.previous_output.to_bytes
        ++ (t.script_sig.to_bytes ++ (toLE 4 t.sequence ++ rest))).length
        < 36 + t.script_sig.to_bytes.length + 4) by rw [← harr]; omega),
    show (t.previous_output.to_bytes
        ++ (t.script_sig.to_bytes ++ (toLE 4 t.sequence ++ rest))).drop
          (36 + t.script_sig.to_bytes.length)
      = toLE 4 t.sequence ++ rest by
        rw [← List.append_assoc,
          show (36 + t.script_sig.to_bytes.length)
            = (t.previous_output.to_bytes ++ t.script_sig.to_bytes).length by
              simp [hol],
          List.drop_left],
    take_toLE_append, fromLE_toLE_of_lt (show t.sequence < 256 ^ 4 by omega),
    to_bytes_length_ti t h32]

/-- Plain round-trip for `TransactionInput`. -/
theorem TransactionInput.from_bytes_to_bytes_ti (t : TransactionInput)
    (h : t.wf) :
    TransactionInput.from_bytes t.to_bytes = .ok (t, t.to_bytes.length) := by
  simpa using TransactionInput.from_bytes_to_bytes_append_ti t h []

/-- A successful `TransactionInput` decode is preserved by appending
trailing bytes. -/
theorem TransactionInput.from_bytes_extend_ti {bs : List Nat}
    {t : TransactionInput} {n : Nat}
    (h : TransactionInput.from_bytes bs = .ok (t, n)) (rest : List Nat) :
    TransactionInput.from_bytes (bs ++ rest) = .ok (t, n) := by
  simp only [TransactionInput.from_bytes] at h ⊢
  by_cases h36 : bs.length < 36
  · simp [h36] at h
  · rw [if_neg h36] at h
    rw [if_neg (show ¬((bs ++ rest).length < 36) by simp; omega)]
    rcases hop : OutPoint.from_bytes bs with p | e | _ <;> rw [hop] at h <;>
      simp only [RResult.unwrapThen_ok, RResult.unwrapThen_err,
        RResult.unwrapThen_panicked] at h
    · obtain ⟨op, k⟩ := p
      rw [OutPoint.from_bytes_extend_op hop rest, RResult.unwrapThen_ok]
      by_cases hk : k ≠ 36
      · rw [if_pos hk] at h
        cases h
      · push_neg at hk
        subst hk
        rw [if_neg (show ¬((36 : Nat) ≠ 36) by simp), if_neg h36] at h
        rw [if_neg (show ¬((36 : Nat) ≠ 36) by simp),
          if_neg (show ¬((bs ++ rest).length < 36) by simp; omega),
          List.drop_append_of_le_length (show 36 ≤ bs.length by omega)]
        rcases hscr : Script.from_bytes (bs.drop 36) with q | e | _ <;>
          rw [hscr] at h <;>
          simp only [RResult.unwrapThen_ok, RResult.unwrapThen_err,
            RResult.unwrapThen_panicked] at h
        · obtain ⟨scr, m⟩ := q
          rw [Script.from_bytes_extend_scr hscr rest, RResult.unwrapThen_ok]
          by_cases hfin : bs.length < 36 + m + 4
          · rw [if_pos hfin] at h
            cases h
          · rw [if_neg hfin] at h
            rw [if_neg (show ¬((bs ++ rest).length < 36 + m + 4) by
                simp; omega),
              List.drop_append_of_le_length (show 36 + m ≤ bs.length by omega),
              List.take_append_of_le_length (by simp [List.length_drop]; omega)]
            exact h
        · cases h
        · cases h
    · cases h
    · cases h

/-- A successful `TransactionInput` decode consumes at most the input
length. -/
theorem TransactionInput.from_bytes_le_length_ti {bs : List Nat}
    {t : TransactionInput} {n : Nat}
    (h : TransactionInput.from_bytes bs = .ok (t, n)) : n ≤ bs.length := by
  simp only [TransactionInput.from_bytes] at h
  by_cases h36 : bs.length < 36
  · simp [h36] at h
  · rw [if_neg h36] at h
    rcases hop : OutPoint.from_bytes bs with p | e | _ <;> rw [hop] at h <;>
      simp only [RResult.unwrapThen_ok, RResult.unwrapThen_err,
        RResult.unwrapThen_panicked] at h
    · obtain ⟨op, k⟩ := p
      by_cases hk : k ≠ 36
      · rw [if_pos hk] at h
        cases h
      · push_neg at hk
        subst hk
        rw [if_neg (show ¬((36 : Nat) ≠ 36) by simp), if_neg h36] at h
        rcases hscr : Script.from_bytes (bs.drop 36) with q | e | _ <;>
          rw [hscr] at h <;>
          simp only [RResult.unwrapThen_ok, RResult.unwrapThen_err,
            RResult.unwrapThen_panicked] at h
        · obtain ⟨scr, m⟩ := q
          by_cases hfin : bs.length < 36 + m + 4
          · rw [if_pos hfin] at h
            cases h
          · rw [if_neg hfin] at h
            simp only [RResult.ok.injEq, Prod.mk.injEq] at h
            omega
        · cases h
        · cases h
    · cases h
    · cases h

/-! ## BitcoinTransaction lemmas -/

/-- The type-level invariants Rust guarantees for a well-formed
`BitcoinTransaction` value. -/
def BitcoinTransaction.wf (tx : BitcoinTransaction) : Prop :=
  tx.version < 2 ^ 32 ∧ tx.lock_time < 2 ^ 32 ∧
  tx.inputs.length < 2 ^ 64 ∧ ∀ i ∈ tx.inputs, i.wf

instance (tx : BitcoinTransaction) : Decidable tx.wf := by
  unfold BitcoinTransaction.wf; infer_instance

/-- Running the input loop over the concatenated encodings of `inputs`,
starting right after a prefix, consumes exactly those encodings and
appends the decoded inputs to the accumulator. -/
theorem decodeInputs_encode (inputs : List TransactionInput)
    (h : ∀ i ∈ inputs, i.wf) (pre rest : List Nat)
    (acc : List TransactionInput) :
    decodeInputs (pre ++ ((inputs.map TransactionInput.to_bytes).flatten ++ rest))
      inputs.length pre.length acc
      = .ok (acc ++ inputs,
          pre.length + ((inputs.map TransactionInput.to_bytes).flatten).length) := by
  induction inputs generalizing pre acc with
  | nil => simp [decodeInputs]
  | cons ti tis ih =>
    have hwf : ti.wf := h ti (by simp)
    have htis : ∀ i ∈ tis, i.wf := fun i hi => h i (by simp [hi])
    simp only [List.map_cons, List.flatten_cons, List.length_cons,
      List.append_assoc]
    rw [decodeInputs,
      if_neg (show ¬((pre ++ (ti.to_bytes
          ++ ((tis.map TransactionInput.to_bytes).flatten ++ rest))).length
          < pre.length) by simp),
      List.drop_left,
      TransactionInput.from_bytes_to_bytes_append_ti ti hwf _,
      RResult.andThen_ok,
      show pre.length + ti.to_bytes.length = (pre ++ ti.to_bytes).length by simp,
      ← List.append_assoc,
      ih htis (pre ++ ti.to_bytes) (acc ++ [ti])]
    simp [List.append_assoc]
    omega

/-- Decoding an encoded `BitcoinTransaction` followed by arbitrary
trailing bytes recovers it and consumes exactly the encoding. -/
theorem BitcoinTransaction.from_bytes_to_bytes_append_tx (tx : BitcoinTransaction)
    (h : tx.wf) (rest : List Nat) :
    BitcoinTransaction.from_bytes (tx.to_bytes ++ rest)
      = .ok (tx, tx.to_bytes.length) := by
  obtain ⟨hv, hl, hc, hins⟩ := h
  have harr : tx.to_bytes ++ rest
      = toLE 4 tx.version
        ++ ((CompactSize.new tx.inputs.length).to_bytes
          ++ ((tx.inputs.map TransactionInput.to_bytes).flatten
            ++ (toLE 4 tx.lock_time ++ rest))) := by
    simp [to_bytes]
  have hlen : (tx.to_bytes ++ rest).length
      = 4 + (CompactSize.new tx.inputs.length).to_bytes.length
        + ((tx.inputs.map TransactionInput.to_bytes).flatten).length
        + 4 + rest.length := by
    simp [to_bytes]
    omega
  simp only [BitcoinTransaction.from_bytes]
  rw [if_neg (show ¬((tx.to_bytes ++ rest).length < 4) by omega), harr,
    take_toLE_append, fromLE_toLE_of_lt (show tx.version < 256 ^ 4 by omega),
    drop_toLE_append,
    CompactSize.from_bytes_to_bytes_append_cs (CompactSize.new tx.inputs.length)
      hc _,
    RResult.andThen_ok]
  rw [show toLE 4 tx.version
        ++ ((CompactSize.new tx.inputs.length).to_bytes
          ++ ((tx.inputs.map TransactionInput.to_bytes).flatten
            ++ (toLE 4 tx.lock_time ++ rest)))
      = (toLE 4 tx.version ++ (CompactSize.new tx.inputs.length).to_bytes)
        ++ ((tx.inputs.map TransactionInput.to_bytes).flatten
          ++ (toLE 4 tx.lock_time ++ rest)) from
      (List.append_assoc _ _ _).symm,
    show 4 + (CompactSize.new tx.inputs.length).to_bytes.length
      = (toLE 4 tx.version ++ (CompactSize.new tx.inputs.length).to_bytes).length
      by simp,
    show ((CompactSize.new tx.inputs.length,
        (CompactSize.new tx.inputs.length).to_bytes.length)).1.value
      = tx.inputs.length from rfl,
    decodeInputs_encode tx.inputs hins _ _ [],
    RResult.andThen_ok]
  simp only [List.nil_append]
  have hfin1 : ¬((toLE 4 tx.version
          ++ (CompactSize.new tx.inputs.length).to_bytes
          ++ ((tx.inputs.map TransactionInput.to_bytes).flatten
            ++ (toLE 4 tx.lock_time ++ rest))).length
        < (toLE 4 tx.version
            ++ (CompactSize.new tx.inputs.length).to_bytes).length
          + ((tx.inputs.map TransactionInput.to_bytes).flatten).length + 4) := by
    simp
    omega
  have hfin2 : tx.to_bytes.length
      = ((toLE 4 tx.version ++ (CompactSize.new tx.inputs.length).to_bytes)
        ++ (tx.inputs.map TransactionInput.to_bytes).flatten).length + 4 := by
    simp [to_bytes]
    omega
  rw [if_neg hfin1,
    List.append_assoc (toLE 4 tx.version
      ++ (CompactSize.new tx.inputs.length).to_bytes)
      ((tx.inputs.map TransactionInput.to_bytes).flatten)
      (toLE 4 tx.lock_time ++ rest) |>.symm,
    show (toLE 4 tx.version
          ++ (CompactSize.new tx.inputs.length).to_bytes).length
        + ((tx.inputs.map TransactionInput.to_bytes).flatten).length
      = ((toLE 4 tx.version
          ++ (CompactSize.new tx.inputs.length).to_bytes)
        ++ (tx.inputs.map TransactionInput.to_bytes).flatten).length by
        simp
        omega,
    List.drop_left, take_toLE_append,
    fromLE_toLE_of_lt (show tx.lock_time < 256 ^ 4 by omega), hfin2]

/-- Plain round-trip for `BitcoinTransaction`. -/
theorem BitcoinTransaction.from_bytes_to_bytes_tx (tx : BitcoinTransaction)
    (h : tx.wf) :
    BitcoinTransaction.from_bytes tx.to_bytes = .ok (tx, tx.to_bytes.length) := by
  simpa using BitcoinTransaction.from_bytes_to_bytes_append_tx tx h []

/-- A successful run of the input loop is preserved by appending trailing
bytes to the underlying slice. -/
theorem decodeInputs_extend {bs : List Nat} (rest : List Nat) :
    ∀ {count offset : Nat} {acc l : List TransactionInput} {off : Nat},
    decodeInputs bs count offset acc = .ok (l, off) →
    decodeInputs (bs ++ rest) count offset acc = .ok (l, off) := by
  intro count
  induction count with
  | zero => intro offset acc l off h; simpa [decodeInputs] using h
  | succ k ih =>
    intro offset acc l off h
    rw [decodeInputs] at h
    by_cases hoff : bs.length < offset
    · simp [hoff] at h
    · rw [if_neg hoff] at h
      rw [decodeInputs,
        if_neg (show ¬((bs ++ rest).length < offset) by simp; omega),
        List.drop_append_of_le_length (show offset ≤ bs.length by omega)]
      rcases hti : TransactionInput.from_bytes (bs.drop offset) with p | e | _ <;>
        rw [hti] at h <;>
        simp only [RResult.andThen_ok, RResult.andThen_err,
          RResult.andThen_panicked] at h
      · obtain ⟨ti, sz⟩ := p
        rw [TransactionInput.from_bytes_extend_ti hti rest, RResult.andThen_ok]
        exact ih h
      · cases h
      · cases h

/-- A successful `BitcoinTransaction` decode is preserved by appending
trailing bytes. -/
theorem BitcoinTransaction.from_bytes_extend_tx {bs : List Nat}
    {tx : BitcoinTransaction} {n : Nat}
    (h : BitcoinTransaction.from_bytes bs = .ok (tx, n)) (rest : List Nat) :
    BitcoinTransaction.from_bytes (bs ++ rest) = .ok (tx, n) := by
  simp only [BitcoinTransaction.from_bytes] at h ⊢
  by_cases h4 : bs.length < 4
  · simp [h4] at h
  · rw [if_neg h4] at h
    rw [if_neg (show ¬((bs ++ rest).length < 4) by simp; omega),
      List.take_append_of_le_length (show 4 ≤ bs.length by omega),
      List.drop_append_of_le_length (show 4 ≤ bs.length by omega)]
    rcases hcs : CompactSize.from_bytes (bs.drop 4) with p | e | _ <;>
      rw [hcs] at h <;>
      simp only [RResult.andThen_ok, RResult.andThen_err,
        RResult.andThen_panicked] at h
    · obtain ⟨c, k⟩ := p
      rw [CompactSize.from_bytes_extend_cs hcs rest, RResult.andThen_ok]
      rcases hdec : decodeInputs bs c.value (4 + k) [] with q | e | _ <;>
        rw [hdec] at h <;>
        simp only [RResult.andThen_ok, RResult.andThen_err,
          RResult.andThen_panicked] at h
      · obtain ⟨ins, off⟩ := q
        rw [decodeInputs_extend rest hdec, RResult.andThen_ok]
        by_cases hfin : bs.length < off + 4
        · rw [if_pos hfin] at h
          cases h
        · rw [if_neg hfin] at h
          rw [if_neg (show ¬((bs ++ rest).length < off + 4) by simp; omega),
            List.drop_append_of_le_length (show off ≤ bs.length by omega),
            List.take_append_of_le_length (by simp [List.length_drop]; omega)]
          exact h
      · cases h
      · cases h
    · cases h
    · cases h

/-- A successful `BitcoinTransaction` decode consumes at most the input
length. -/
theorem BitcoinTransaction.from_bytes_le_length_tx {bs : List Nat}
    {tx : BitcoinTransaction} {n : Nat}
    (h : BitcoinTransaction.from_bytes bs = .ok (tx, n)) : n ≤ bs.length := by
  simp only [BitcoinTransaction.from_bytes] at h
  by_cases h4 : bs.length < 4
  · simp [h4] at h
  · rw [if_neg h4] at h
    rcases hcs : CompactSize.from_bytes (bs.drop 4) with p | e | _ <;>
      rw [hcs] at h <;>
      simp only [RResult.andThen_ok, RResult.andThen_err,
        RResult.andThen_panicked] at h
    · obtain ⟨c, k⟩ := p
      rcases hdec : decodeInputs bs c.value (4 + k) [] with q | e | _ <;>
        rw [hdec] at h <;>
        simp only [RResult.andThen_ok, RResult.andThen_err,
          RResult.andThen_panicked] at h
      · obtain ⟨ins, off⟩ := q
        by_cases hfin : bs.length < off + 4
        · rw [if_pos hfin] at h
          cases h
        · rw [if_neg hfin] at h
          simp only [RResult.ok.injEq, Prod.mk.injEq] at h
          omega
      · cases h
      · cases h
    · cases h
    · cases h

/-! ## Claim theorems -/

/-- C1: for every valid value `v` of each codec type (CompactSize,
OutPoint, Script, TransactionInput, BitcoinTransaction), decoding the
bytes produced by encoding `v` succeeds and returns exactly
`(v, (to_bytes v).length)`. -/
theorem C1_roundtrip_all_codecs :
    (∀ c : CompactSize, c.value < 2 ^ 64 →
      CompactSize.from_bytes c.to_bytes = .ok (c, c.to_bytes.length)) ∧
    (∀ o : OutPoint, o.txid.bytes.length = 32 → o.vout < 2 ^ 32 →
      OutPoint.from_bytes o.to_bytes = .ok (o, o.to_bytes.length)) ∧
    (∀ s : Script, s.bytes.length < 2 ^ 64 →
      Script.from_bytes s.to_bytes = .ok (s, s.to_bytes.length)) ∧
    (∀ t : TransactionInput, t.wf →
      TransactionInput.from_bytes t.to_bytes = .ok (t, t.to_bytes.length)) ∧
    (∀ tx : BitcoinTransaction, tx.wf →
      BitcoinTransaction.from_bytes tx.to_bytes
        = .ok (tx, tx.to_bytes.length)) := by
  refine ⟨?_, ?_, ?_, ?_, ?_⟩
  · exact fun c h => CompactSize.from_bytes_to_bytes_cs c h
  · intro o h32 hv
    rw [OutPoint.from_bytes_to_bytes_op o h32 hv, OutPoint.to_bytes_length_op o h32]
  · exact fun s h => Script.from_bytes_to_bytes_scr s h
  · exact fun t h => TransactionInput.from_bytes_to_bytes_ti t h
  · exact fun tx h => BitcoinTransaction.from_bytes_to_bytes_tx tx h

/-- Concrete one-input transaction used to witness C1. -/
def txC1 : BitcoinTransaction :=
  ⟨1, [⟨⟨⟨List.replicate 32 5⟩, 7⟩, ⟨[1, 2, 3]⟩, 9⟩], 8⟩

/-- Witness for C1 at a concrete transaction. -/
theorem C1_roundtrip_all_codecs_witness :
    txC1.wf ∧
    BitcoinTransaction.from_bytes txC1.to_bytes
      = .ok (txC1, txC1.to_bytes.length) :=
  ⟨by decide, C1_roundtrip_all_codecs.2.2.2.2 txC1 (by decide)⟩

/-- C4: `CompactSize::to_bytes` encodes by numeric range — one byte for
values up to 252, `0xFD` + 2-byte LE, `0xFE` + 4-byte LE, `0xFF` + 8-byte
LE — and in particular at the four boundary examples. -/
theorem C4_to_bytes_ranges :
    (∀ c : CompactSize, c.value ≤ 252 → c.to_bytes = [c.value]) ∧
    (∀ c : CompactSize, 253 ≤ c.value → c.value ≤ 65535 →
      c.to_bytes = 253 :: toLE 2 c.value) ∧
    (∀ c : CompactSize, 65536 ≤ c.value → c.value ≤ 4294967295 →
      c.to_bytes = 254 :: toLE 4 c.value) ∧
    (∀ c : CompactSize, 4294967296 ≤ c.value →
      c.to_bytes = 255 :: toLE 8 c.value) ∧
    (CompactSize.new 252).to_bytes = [252] ∧
    (CompactSize.new 253).to_bytes = [253, 253, 0] ∧
    (CompactSize.new 65536).to_bytes = [254, 0, 0, 1, 0] ∧
    (CompactSize.new 4294967296).to_bytes
      = [255, 0, 0, 0, 0, 1, 0, 0, 0] := by
  refine ⟨?_, ?_, ?_, ?_, by decide, by decide, by decide, by decide⟩
  · intro c h
    simp [CompactSize.to_bytes, h, Nat.mod_eq_of_lt (show c.value < 256 by omega)]
  · intro c h1 h2
    rw [CompactSize.to_bytes]
    simp only [if_neg (show ¬(c.value ≤ 252) by omega), if_pos h2]
  · intro c h1 h2
    rw [CompactSize.to_bytes]
    simp only [if_neg (show ¬(c.value ≤ 252) by omega),
      if_neg (show ¬(c.value ≤ 65535) by omega), if_pos h2]
  · intro c h1
    rw [CompactSize.to_bytes]
    simp only [if_neg (show ¬(c.value ≤ 252) by omega),
      if_neg (show ¬(c.value ≤ 65535) by omega),
      if_neg (show ¬(c.value ≤ 4294967295) by omega)]

/-- Witness for C4 at a concrete two-byte-range value. -/
theorem C4_to_bytes_ranges_witness :
    253 ≤ (CompactSize.new 300).value ∧ (CompactSize.new 300).value ≤ 65535 ∧
    (CompactSize.new 300).to_bytes = 253 :: toLE 2 300 :=
  ⟨by decide, by decide,
    C4_to_bytes_ranges.2.1 (CompactSize.new 300) (by decide) (by decide)⟩

/-- C5: `CompactSize::from_bytes` fails with `InsufficientBytes` on the
empty input and on any input shorter than the payload its first byte
demands (3 bytes for `0xFD`, 5 for `0xFE`, 9 for `0xFF`); on success the
consumed count is exactly 1, 3, 5 or 9 according to the discriminator. -/
theorem C5_from_bytes_length_contract :
    CompactSize.from_bytes [] = .err .InsufficientBytes ∧
    ∀ (b : Nat) (t : List Nat),
      (b = 253 → (b :: t).length < 3 →
        CompactSize.from_bytes (b :: t) = .err .InsufficientBytes) ∧
      (b = 254 → (b :: t).length < 5 →
        CompactSize.from_bytes (b :: t) = .err .InsufficientBytes) ∧
      (b = 255 → (b :: t).length < 9 →
        CompactSize.from_bytes (b :: t) = .err .InsufficientBytes) ∧
      (∀ (c : CompactSize) (n : Nat),
        CompactSize.from_bytes (b :: t) = .ok (c, n) →
        (b ≤ 252 → n = 1) ∧ (b = 253 → n = 3) ∧ (b = 254 → n = 5) ∧
        (b = 255 → n = 9)) := by
  refine ⟨rfl, ?_⟩
  intro b t
  refine ⟨?_, ?_, ?_, ?_⟩
  · intro hb hlen
    subst hb
    rw [CompactSize.from_bytes]
    rw [if_neg (by omega), if_pos rfl, if_pos (by simpa using hlen)]
  · intro hb hlen
    subst hb
    rw [CompactSize.from_bytes]
    rw [if_neg (by omega), if_neg (by omega), if_pos rfl,
      if_pos (by simpa using hlen)]
  · intro hb hlen
    subst hb
    rw [CompactSize.from_bytes]
    rw [if_neg (by omega), if_neg (by omega), if_neg (by omega),
      if_pos (by simpa using hlen)]
  · intro c n h
    rw [CompactSize.from_bytes] at h
    split_ifs at h <;>
      simp only [RResult.ok.injEq, Prod.mk.injEq] at h <;>
      refine ⟨?_, ?_, ?_, ?_⟩ <;> intro hb <;> omega

/-- Witness for C5 at concrete short inputs. -/
theorem C5_from_bytes_length_contract_witness :
    CompactSize.from_bytes [253, 0] = .err .InsufficientBytes :=
  (C5_from_bytes_length_contract.2 253 [0]).1 rfl (by decide)

/-- C6: `OutPoint::from_bytes` fails with `InsufficientBytes` on fewer
than 36 bytes, and on at least 36 bytes succeeds consuming exactly 36,
taking the identifier from `bytes[0..32]` and the index from
`bytes[32..36]` as a little-endian integer. -/
theorem C6_outpoint_decode :
    ∀ bs : List Nat,
      (bs.length < 36 → OutPoint.from_bytes bs = .err .InsufficientBytes) ∧
      (36 ≤ bs.length →
        ∃ o : OutPoint, OutPoint.from_bytes bs = .ok (o, 36) ∧
          o.txid.bytes = bs.take 32 ∧
          o.vout = fromLE ((bs.drop 32).take 4)) := by
  intro bs
  constructor
  · intro h
    rw [OutPoint.from_bytes, if_pos h]
  · intro h
    exact ⟨⟨⟨bs.take 32⟩, fromLE ((bs.drop 32).take 4)⟩,
      by rw [OutPoint.from_bytes, if_neg (by omega)], rfl, rfl⟩

/-- Witness for C6 at concrete inputs of lengths 35 and 36. -/
theorem C6_outpoint_decode_witness :
    OutPoint.from_bytes (List.replicate 35 1) = .err .InsufficientBytes ∧
    ∃ o : OutPoint, OutPoint.from_bytes (List.replicate 36 1) = .ok (o, 36) ∧
      o.txid.bytes = (List.replicate 36 1).take 32 ∧
      o.vout = fromLE (((List.replicate 36 1).drop 32).take 4) :=
  ⟨(C6_outpoint_decode (List.replicate 35 1)).1 (by decide),
    (C6_outpoint_decode (List.replicate 36 1)).2 (by decide)⟩

/-- `hex::decode` of an even-length string of hex digits yields half as
many bytes. -/
theorem hexDecode_all_hex (k : Nat) :
    ∀ s : List Char, s.length = 2 * k → (∀ c ∈ s, (hexVal c).isSome) →
      ∃ l, hexDecode s = some l ∧ l.length = k := by
  induction k with
  | zero =>
    intro s hs _
    rw [List.length_eq_zero] at hs
    subst hs
    exact ⟨[], rfl, rfl⟩
  | succ k ih =>
    intro s hs hall
    match s with
    | [] =>
      simp at hs
    | [a] =>
      simp at hs
      omega
    | a :: b :: t =>
      have ha := hall a (by simp)
      have hb := hall b (by simp)
      obtain ⟨x, hx⟩ := Option.isSome_iff_exists.mp ha
      obtain ⟨y, hy⟩ := Option.isSome_iff_exists.mp hb
      have ht : t.length = 2 * k := by simp at hs; omega
      obtain ⟨l, hl, hlen⟩ := ih t ht (fun c hc => hall c (by simp [hc]))
      refine ⟨(16 * x + y) :: l, ?_, by simp [hlen]⟩
      rw [hexDecode, hx, hy, hl]

/-- C7: hex-serializing the all-zero 32-byte identifier yields 64 `'0'`
characters, and deserializing any 62-character hex string returns the
invalid-format custom error (an error, not a success and not a panic),
because the decoded length 31 is not 32. -/
theorem C7_txid_text_codec :
    Txid.serialize ⟨List.replicate 32 0⟩ = List.replicate 64 '0' ∧
    ∀ s : List Char, s.length = 62 → (∀ c ∈ s, (hexVal c).isSome) →
      Txid.deserialize s = .customErr := by
  constructor
  · decide
  · intro s hlen hhex
    obtain ⟨l, hl, hllen⟩ := hexDecode_all_hex 31 s (by omega) hhex
    rw [Txid.deserialize, hl]
    simp [hllen]

/-- Witness for C7 at the 62-character string of `'0'`s. -/
theorem C7_txid_text_codec_witness :
    (List.replicate 62 '0').length = 62 ∧
    Txid.deserialize (List.replicate 62 '0') = .customErr :=
  ⟨by decide,
    C7_txid_text_codec.2 (List.replicate 62 '0') (by decide) (by decide)⟩

/-- C8: the decoder accepts non-minimal encodings — for every `x ≤ 252`
the three-byte input `[0xFD, x, 0]` decodes to `x` with 3 bytes
consumed. -/
theorem C8_nonminimal_accepted :
    ∀ x : Nat, x ≤ 252 →
      CompactSize.from_bytes [253, x, 0] = .ok (CompactSize.new x, 3) := by
  intro x hx
  rw [CompactSize.from_bytes,
    if_neg (by omega), if_pos rfl, if_neg (by simp)]
  simp [fromLE]

/-- Witness for C8 at `x = 7`. -/
theorem C8_nonminimal_accepted_witness :
    CompactSize.from_bytes [253, 7, 0] = .ok (CompactSize.new 7, 3) :=
  C8_nonminimal_accepted 7 (by decide)

/-- C2 (code bug): on an input whose first 36 bytes are present but whose
Script decode at offset 36 fails, `TransactionInput::from_bytes` PANICS
(`.unwrap()` on the `Err`) instead of returning that failure: at 36 zero
bytes the script slice is empty, `Script::from_bytes` fails with
`InsufficientBytes`, and the whole decode panics. -/
theorem C2_script_failure_panics :
    Script.from_bytes ((List.replicate 36 0).drop 36)
      = .err .InsufficientBytes ∧
    TransactionInput.from_bytes (List.replicate 36 0) = .panicked := by
  constructor <;> decide

/-- C3 (code bug): on a 41-byte input declaring one transaction input
whose 36-byte remainder makes the nested `TransactionInput` decode fail
inside its script, `BitcoinTransaction::from_bytes` panics instead of
propagating an error. -/
theorem C3_nested_decode_panics :
    BitcoinTransaction.from_bytes ([1, 0, 0, 0, 1] ++ List.replicate 36 0)
      = .panicked := by
  decide

/-- C9: every decoder ignores trailing bytes — whenever a slice decodes
successfully, appending arbitrary extra bytes leaves the decoded value and
the consumed count unchanged (in particular a complete valid encoding
followed by junk decodes to the value of that prefix alone, and never
produces `InvalidFormat`). -/
theorem C9_trailing_bytes_ignored :
    (∀ (p rest : List Nat) (c : CompactSize) (n : Nat),
      CompactSize.from_bytes p = .ok (c, n) →
      CompactSize.from_bytes (p ++ rest) = .ok (c, n)) ∧
    (∀ (p rest : List Nat) (o : OutPoint) (n : Nat),
      OutPoint.from_bytes p = .ok (o, n) →
      OutPoint.from_bytes (p ++ rest) = .ok (o, n)) ∧
    (∀ (p rest : List Nat) (s : Script) (n : Nat),
      Script.from_bytes p = .ok (s, n) →
      Script.from_bytes (p ++ rest) = .ok (s, n)) ∧
    (∀ (p rest : List Nat) (t : TransactionInput) (n : Nat),
      TransactionInput.from_bytes p = .ok (t, n) →
      TransactionInput.from_bytes (p ++ rest) = .ok (t, n)) ∧
    (∀ (p rest : List Nat) (tx : BitcoinTransaction) (n : Nat),
      BitcoinTransaction.from_bytes p = .ok (tx, n) →
      BitcoinTransaction.from_bytes (p ++ rest) = .ok (tx, n)) :=
  ⟨fun _ rest _ _ h => CompactSize.from_bytes_extend_cs h rest,
    fun _ rest _ _ h => OutPoint.from_bytes_extend_op h rest,
    fun _ rest _ _ h => Script.from_bytes_extend_scr h rest,
    fun _ rest _ _ h => TransactionInput.from_bytes_extend_ti h rest,
    fun _ rest _ _ h => BitcoinTransaction.from_bytes_extend_tx h rest⟩

/-- Witness for C9: a one-byte CompactSize followed by junk. -/
theorem C9_trailing_bytes_ignored_witness :
    CompactSize.from_bytes [5] = .ok (CompactSize.new 5, 1) ∧
    CompactSize.from_bytes ([5] ++ [250, 251, 252])
      = .ok (CompactSize.new 5, 1) :=
  ⟨by decide, C9_trailing_bytes_ignored.1 [5] [250, 251, 252]
    (CompactSize.new 5) 1 (by decide)⟩

/-- C10: whenever any of the five decoders succeeds, the reported number
of consumed bytes is at most the length of the input slice. -/
theorem C10_consumed_le_input_length :
    (∀ (bs : List Nat) (c : CompactSize) (n : Nat),
      CompactSize.from_bytes bs = .ok (c, n) → n ≤ bs.length) ∧
    (∀ (bs : List Nat) (o : OutPoint) (n : Nat),
      OutPoint.from_bytes bs = .ok (o, n) → n ≤ bs.length) ∧
    (∀ (bs : List Nat) (s : Script) (n : Nat),
      Script.from_bytes bs = .ok (s, n) → n ≤ bs.length) ∧
    (∀ (bs : List Nat) (t : TransactionInput) (n : Nat),
      TransactionInput.from_bytes bs = .ok (t, n) → n ≤ bs.length) ∧
    (∀ (bs : List Nat) (tx : BitcoinTransaction) (n : Nat),
      BitcoinTransaction.from_bytes bs = .ok (tx, n) → n ≤ bs.length) :=
  ⟨fun _ _ _ h => CompactSize.from_bytes_le_length_cs h,
    fun _ _ _ h => OutPoint.from_bytes_le_length_op h,
    fun _ _ _ h => Script.from_bytes_le_length_scr h,
    fun _ _ _ h => TransactionInput.from_bytes_le_length_ti h,
    fun _ _ _ h => BitcoinTransaction.from_bytes_le_length_tx h⟩

/-- Witness for C10: a Script decode consuming 4 of 6 bytes. -/
theorem C10_consumed_le_input_length_witness :
    Script.from_bytes [3, 10, 20, 30, 99, 100]
      = .ok (Script.new [10, 20, 30], 4) ∧ 4 ≤ 6 :=
  ⟨by decide,
    C10_consumed_le_input_length.2.2.1 [3, 10, 20, 30, 99, 100]
      (Script.new [10, 20, 30]) 4 (by decide)⟩

end BtcCodec
